import Mathlib

/-!
# Verification of `train.py` (source_code_modelling)

Shallow embedding of the character-level language-model training script
`src/train.py` and of the framework components its specification describes
(sequential batch source, configuration resolver, training loop state
machine), together with proofs of the spec's claims.

Conventions:
* Tensors are nested lists; the scalar entries are `ℚ` (every floating-point
  value is a rational, and the script's arithmetic is idealized as exact).
* The loss adapter's value is real (`ℝ`), since cross-entropy uses `exp`/`log`.
* Fallible indexing off the happy path is modelled with `getD` defaults; all
  claims only exercise in-range indices.
-/

namespace SourceCodeModelling

/-- Embedding of `torch.argmax` over a score vector: the index of the first occurrence of
the maximal entry (PyTorch documents that the first maximal index is
returned); `0` on the empty list. -/
def listArgmax : List ℚ → ℕ
  | [] => 0
  | x :: xs => if xs.all (fun y => decide (y ≤ x)) then 0 else listArgmax xs + 1

/-- The vocabulary of `TextDataset`: a character-to-index map `stoi` and the
index-to-character table `itos`. -/
structure TextVocab where
  stoi : Char → ℕ
  itos : List Char

/-- Embedding of `TextDataset.text_to_i`: encode a character sequence to its index
sequence through the vocabulary. -/
def text_to_i (tx : TextVocab) (s : List Char) : List ℕ :=
  s.map tx.stoi

/-- The model adapter: `forward` consumes the parameter store and a sequence
of symbol indices (the script's `(len, 1)` tensor, with the trivial batch
dimension kept implicit) and returns per-position score vectors over the
vocabulary. `P` is the opaque type of the parameter store. -/
structure Model (P : Type) where
  forward : P → List ℕ → List (List ℚ)

/-- The style tags `labml.logger.Text.subtle` / `Text.value` used by the
sampling log. -/
inductive LogStyle where
  | subtle
  | value
deriving DecidableEq

/-- The state threaded through one epoch's sampling loop in `Configs.run`:
the model's parameter store together with the accumulated `prompt` and
`log`. -/
structure SampleState (P : Type) where
  params : P
  prompt : List Char
  log : List (List Char × LogStyle)

/-- Line 52: `data = self.text.text_to_i(prompt)` — the tensor fed to the
model, built from the entire current prompt. -/
def sampleData {P : Type} (tx : TextVocab) (st : SampleState P) : List ℕ :=
  text_to_i tx st.prompt

/-- The symbol generated from a prompt (lines 52–56 of `train.py`): encode
the prompt, run the model, take the arg-max index at every position, index
the last position's arg-max into `itos`. -/
def genSym {P : Type} (m : Model P) (tx : TextVocab) (p : P) (prompt : List Char) : Char :=
  let data := text_to_i tx prompt
  let output := m.forward p data
  let outIdx := output.map listArgmax
  tx.itos.getD (outIdx.getLastD 0) default

/-- One iteration of the 25-step sampling loop (lines 51–57 of `train.py`):
encode the current prompt, run the model, append the decoded arg-max symbol
of the final position to the prompt, and record the `(symbol, Text.value)`
pair in the log. The parameter store is read, never written. -/
def sampleStep {P : Type} (m : Model P) (tx : TextVocab) (st : SampleState P) : SampleState P :=
  let data := sampleData tx st
  let output := m.forward st.params data
  let outIdx := output.map listArgmax
  let c := tx.itos.getD (outIdx.getLastD 0) default
  { st with
      prompt := st.prompt ++ [c]
      log := st.log ++ [([c], LogStyle.value)] }

/-- Line 49: the fixed literal prompt `'def train('`. -/
def initPrompt : List Char := "def train(".toList

/-- Line 50: the initial sampling state, with
`log = [(prompt, Text.subtle)]`. -/
def sampleInit {P : Type} (p : P) : SampleState P :=
  ⟨p, initPrompt, [(initPrompt, LogStyle.subtle)]⟩

/-- The whole sampling phase of one epoch: 25 iterations of `sampleStep`
starting from the fixed prompt. -/
def samplingPhase {P : Type} (m : Model P) (tx : TextVocab) (p : P) : SampleState P :=
  (sampleStep m tx)^[25] (sampleInit p)

/-- The sequence of generated symbols: what the sampling phase appended
after the initial prompt. -/
def generated {P : Type} (st : SampleState P) : List Char :=
  st.prompt.drop initPrompt.length

/-- The symbols generated by the first `n` sampling iterations, in order. -/
def genList {P : Type} (m : Model P) (tx : TextVocab) (p : P) : ℕ → List Char
  | 0 => []
  | n + 1 =>
    genList m tx p n ++ [genSym m tx p (initPrompt ++ genList m tx p n)]

lemma sampleStep_eq {P : Type} (m : Model P) (tx : TextVocab) (st : SampleState P) :
    sampleStep m tx st =
      ⟨st.params, st.prompt ++ [genSym m tx st.params st.prompt],
        st.log ++ [([genSym m tx st.params st.prompt], LogStyle.value)]⟩ := rfl

/-- Closed form of the sampling loop after `n` iterations: the parameters
are untouched, the prompt is the initial prompt followed by the generated
symbols, and the log mirrors the generated symbols. -/
lemma sampleIter_eq {P : Type} (m : Model P) (tx : TextVocab) (p : P) :
    ∀ n : ℕ,
      (sampleStep m tx)^[n] (sampleInit p) =
        ⟨p, initPrompt ++ genList m tx p n,
          (initPrompt, LogStyle.subtle) ::
            (genList m tx p n).map (fun c => ([c], LogStyle.value))⟩
  | 0 => by simp [sampleInit, genList]
  | n + 1 => by
    rw [Function.iterate_succ_apply', sampleIter_eq m tx p n, sampleStep_eq]
    simp [genList, List.append_assoc]

lemma genList_length {P : Type} (m : Model P) (tx : TextVocab) (p : P) :
    ∀ n : ℕ, (genList m tx p n).length = n
  | 0 => rfl
  | n + 1 => by simp [genList, genList_length m tx p n]

lemma samplingPhase_eq {P : Type} (m : Model P) (tx : TextVocab) (p : P) :
    samplingPhase m tx p =
      ⟨p, initPrompt ++ genList m tx p 25,
        (initPrompt, LogStyle.subtle) ::
          (genList m tx p 25).map (fun c => ([c], LogStyle.value))⟩ :=
  sampleIter_eq m tx p 25

lemma generated_samplingPhase {P : Type} (m : Model P) (tx : TextVocab) (p : P) :
    generated (samplingPhase m tx p) = genList m tx p 25 := by
  rw [samplingPhase_eq]
  simp [generated]

/-- Embedding of `character_tokenizer` (line 149): split a string into its list of
characters. -/
def character_tokenizer (x : String) : List Char :=
  x.toList

/-- C9: the character tokenizer returns exactly the characters of its input:
concatenating its output (`List.asString`) reconstructs the input string,
and the token count equals the string's length. -/
theorem character_tokenizer_roundtrip (s : String) :
    (character_tokenizer s).asString = s ∧
      (character_tokenizer s).length = s.length := by
  exact ⟨rfl, rfl⟩

/-- C1: greedy-decoding determinism. With a fixed (deterministic) model, a
second run of the sampling phase started right after the first, with no
parameter update in between (so it starts from the first run's parameter
store), produces the identical generated symbol sequence, and each run
generates exactly 25 symbols. In this pure embedding the forward function is
a mathematical function, so determinism of inference is definitional; the
substance is that sampling does not change the parameters the second run
reads, and that both sequences have length 25. -/
theorem sampling_deterministic {P : Type} (m : Model P) (tx : TextVocab) (p : P) :
    generated (samplingPhase m tx ((samplingPhase m tx p).params)) =
        generated (samplingPhase m tx p) ∧
      (generated (samplingPhase m tx p)).length = 25 := by
  have hp : (samplingPhase m tx p).params = p := by rw [samplingPhase_eq]
  refine ⟨by rw [hp], ?_⟩
  rw [generated_samplingPhase, genList_length]

/-- C3: each sampling iteration appends the vocabulary decoding of the
arg-max-scoring index at the final sequence position of the model's output
on the encoded current prompt, and records the `(generated symbol,
Text.value)` pair in the log; after the 25-step loop the prompt is the
initial prompt followed by the 25 generated symbols in order, and the log is
the initial entry followed by the generated symbols' entries in order. -/
theorem sampling_step_and_final_prompt {P : Type} (m : Model P) (tx : TextVocab) (p : P) :
    (∀ st : SampleState P,
        sampleStep m tx st =
          ⟨st.params, st.prompt ++ [genSym m tx st.params st.prompt],
            st.log ++ [([genSym m tx st.params st.prompt], LogStyle.value)]⟩) ∧
      (samplingPhase m tx p).prompt = initPrompt ++ genList m tx p 25 ∧
      (genList m tx p 25).length = 25 ∧
      (samplingPhase m tx p).log =
        (initPrompt, LogStyle.subtle) ::
          (genList m tx p 25).map (fun c => ([c], LogStyle.value)) := by
  refine ⟨fun st => sampleStep_eq m tx st, ?_, genList_length m tx p 25, ?_⟩
  · rw [samplingPhase_eq]
  · rw [samplingPhase_eq]

/-- C4: the sampling phase does not mutate the model's parameter store: from
any starting state, the parameters after the 25-step greedy decoding loop
equal the parameters before it. -/
theorem sampling_preserves_params {P : Type} (m : Model P) (tx : TextVocab) (p : P) :
    (samplingPhase m tx p).params = p ∧
      ∀ st : SampleState P, (((sampleStep m tx)^[25]) st).params = st.params := by
  constructor
  · rw [samplingPhase_eq]
  · intro st
    have step : ∀ s : SampleState P, (sampleStep m tx s).params = s.params :=
      fun s => rfl
    have : ∀ n : ℕ, (((sampleStep m tx)^[n]) st).params = st.params := by
      intro n
      induction n with
      | zero => rfl
      | succ k ih => rw [Function.iterate_succ_apply', step, ih]
    exact this 25

/-- C10: every sampling iteration feeds the entire current prompt to the
model: the tensor encoded at iteration `i` is the encoding of the full
accumulated prompt (initial prompt plus the `i` symbols generated so far),
and its length is the initial prompt's length plus `i`. -/
theorem sampling_feeds_full_prompt {P : Type} (m : Model P) (tx : TextVocab) (p : P) (i : ℕ) :
    sampleData tx (((sampleStep m tx)^[i]) (sampleInit p)) =
        text_to_i tx (initPrompt ++ genList m tx p i) ∧
      (sampleData tx (((sampleStep m tx)^[i]) (sampleInit p))).length =
        initPrompt.length + i := by
  have h := sampleIter_eq m tx p i
  constructor
  · rw [h]
    rfl
  · rw [h]
    simp [sampleData, text_to_i, genList_length]

/-- The number of positions where the arg-max prediction equals the target,
over a `(d0, d1, vocab)` score tensor and a `(d0, d1)` target tensor:
`pred = output.argmax(dim=-1); pred.eq(target).sum().item()` in
`SimpleAccuracyFunc.__call__` (lines 65–67). -/
def countCorrect (output : List (List (List ℚ))) (target : List (List ℕ)) : ℕ :=
  (((output.map (fun row => row.map listArgmax)).zip target).map
    (fun pt => (pt.1.zip pt.2).countP (fun qq => qq.1 == qq.2))).sum

/-- Embedding of `SimpleAccuracyFunc.__call__` (lines 64–67): the correct-position count
divided by `target.shape[1]`, the length of the target's second dimension. -/
def SimpleAccuracyFunc (output : List (List (List ℚ))) (target : List (List ℕ)) : ℚ :=
  (countCorrect output target : ℚ) / ((target.headD []).length : ℚ)

/-- The value the spec's words describe for the accuracy adapter: correct
positions divided by the total number of target positions. Stated for
comparison with `SimpleAccuracyFunc`, which is translated from the code. -/
def specFractionCorrect (output : List (List (List ℚ))) (target : List (List ℕ)) : ℚ :=
  (countCorrect output target : ℚ) / ((target.map List.length).sum : ℚ)

/-- C2 counterexample: on a `(2, 1, 2)` score tensor whose arg-max matches
the target at both positions, the code returns `2 / target.shape[1] = 2`,
not the fraction of correct positions `2 / 2 = 1`, and the returned value
exceeds `1`. -/
theorem simple_accuracy_cex :
    SimpleAccuracyFunc [[[(1 : ℚ), 0]], [[1, 0]]] [[0], [0]] ≠
        specFractionCorrect [[[(1 : ℚ), 0]], [[1, 0]]] [[0], [0]] ∧
      ¬ SimpleAccuracyFunc [[[(1 : ℚ), 0]], [[1, 0]]] [[0], [0]] ≤ 1 := by
  have h1 : SimpleAccuracyFunc [[[(1 : ℚ), 0]], [[1, 0]]] [[0], [0]] = 2 := by
    norm_num [SimpleAccuracyFunc, countCorrect, listArgmax]
  have h2 : specFractionCorrect [[[(1 : ℚ), 0]], [[1, 0]]] [[0], [0]] = 1 := by
    norm_num [specFractionCorrect, countCorrect, listArgmax]
  rw [h1, h2]
  norm_num

/-- C2 (amended): the accuracy adapter returns the correct-position count
divided by the size of the target's second dimension (`target.shape[1]`),
not by the total number of positions; the result is always nonnegative, and
when the first dimension has size 1 it coincides with the fraction of
correct positions and lies in `[0, 1]`. -/
theorem simple_accuracy_amended (output : List (List (List ℚ)))
    (target : List (List ℕ)) (o : List (List ℚ)) (r : List ℕ) :
    SimpleAccuracyFunc output target =
        (countCorrect output target : ℚ) / ((target.headD []).length : ℚ) ∧
      0 ≤ SimpleAccuracyFunc output target ∧
      SimpleAccuracyFunc [o] [r] = specFractionCorrect [o] [r] ∧
      SimpleAccuracyFunc [o] [r] ≤ 1 := by
  refine ⟨rfl, div_nonneg (Nat.cast_nonneg _) (Nat.cast_nonneg _), ?_, ?_⟩
  · simp [SimpleAccuracyFunc, specFractionCorrect]
  · have hcount : countCorrect [o] [r] ≤ r.length := by
      have h1 : ((o.map listArgmax).zip r).countP (fun qq => qq.1 == qq.2) ≤
          ((o.map listArgmax).zip r).length := List.countP_le_length _
      have h2 : ((o.map listArgmax).zip r).length ≤ r.length := by
        rw [List.length_zip]
        exact min_le_right _ _
      simpa [countCorrect] using le_trans h1 h2
    rcases Nat.eq_zero_or_pos r.length with h0 | hpos
    · have hc0 : countCorrect [o] [r] = 0 := Nat.le_zero.mp (h0 ▸ hcount)
      simp [SimpleAccuracyFunc, hc0]
    · rw [SimpleAccuracyFunc]
      rw [div_le_one (by exact_mod_cast hpos)]
      simpa using (Nat.cast_le (α := ℚ)).mpr hcount

noncomputable section LossAdapter

/-- Embedding of `torch.nn.CrossEntropyLoss` on a single flat-batch element: negative
log-softmax of the score vector at the target index,
`log (Σ exp sᵢ) - s_t`. Real-valued idealization of the float computation;
scores stay rational. -/
def ceSingle (s : List ℚ) (t : ℕ) : ℝ :=
  Real.log ((s.map (fun q => Real.exp (q : ℝ))).sum) - ((s.getD t 0 : ℚ) : ℝ)

/-- Embedding of `torch.nn.CrossEntropyLoss` on a flat batch of score rows and targets:
the mean of the per-element losses. -/
def nnCrossEntropyLoss (rows : List (List ℚ)) (ts : List ℕ) : ℝ :=
  ((rows.zip ts).map (fun p => ceSingle p.1 p.2)).sum / (ts.length : ℝ)

/-- Embedding of `CrossEntropyLoss.__call__` (lines 97–104):
`self.loss(outputs.view(-1, self.n_tokens), targets.view(-1))` — the
`(T, B, n_tokens)` scores and `(T, B)` targets are reshaped into one flat
batch (the outer two dimensions joined) before the underlying cross-entropy
is applied. -/
def CrossEntropyLoss (nTokens : ℕ) (outputs : List (List (List ℚ)))
    (targets : List (List ℕ)) : ℝ :=
  nnCrossEntropyLoss outputs.flatten targets.flatten

end LossAdapter

/-- C8 counterexample: on the tied score tensor `[[[0, 0]]]` of shape
`(1, 1, 2)`, the arg-max index is `0`, but the loss against target `0` is
not strictly less than the loss against the other target `1` — the two
losses are equal, refuting strictness for all score tensors. -/
theorem cross_entropy_argmax_cex :
    listArgmax [(0 : ℚ), 0] = 0 ∧
      ¬ CrossEntropyLoss 2 [[[(0 : ℚ), 0]]] [[listArgmax [(0 : ℚ), 0]]] <
        CrossEntropyLoss 2 [[[(0 : ℚ), 0]]] [[1]] := by
  have harg : listArgmax [(0 : ℚ), 0] = 0 := by norm_num [listArgmax]
  refine ⟨harg, ?_⟩
  rw [harg]
  have : CrossEntropyLoss 2 [[[(0 : ℚ), 0]]] [[0]] =
      CrossEntropyLoss 2 [[[(0 : ℚ), 0]]] [[1]] := by
    simp [CrossEntropyLoss, nnCrossEntropyLoss, ceSingle]
  rw [this]
  exact lt_irrefl _

/-- C8 (amended): the loss adapter reshapes the batch and time dimensions
into one flat batch before applying cross-entropy, and for scores of shape
`(1, 1, vocab)` the loss against the arg-max target is strictly less than
the loss against any other target index whose score is strictly below the
maximum (for an index tying the maximum the losses are equal). -/
theorem cross_entropy_amended (n : ℕ) (outputs : List (List (List ℚ)))
    (targets : List (List ℕ)) (s : List ℚ) (t : ℕ)
    (h : s.getD t 0 < s.getD (listArgmax s) 0) :
    CrossEntropyLoss n outputs targets =
        nnCrossEntropyLoss outputs.flatten targets.flatten ∧
      CrossEntropyLoss n [[s]] [[listArgmax s]] < CrossEntropyLoss n [[s]] [[t]] := by
  refine ⟨rfl, ?_⟩
  have hx : ((s.getD t 0 : ℚ) : ℝ) < ((s.getD (listArgmax s) 0 : ℚ) : ℝ) := by
    exact_mod_cast h
  have hgoal : ceSingle s (listArgmax s) < ceSingle s t :=
    sub_lt_sub_left hx _
  simpa [CrossEntropyLoss, nnCrossEntropyLoss] using hgoal

/-- Witness for `cross_entropy_amended` at scores `[1, 0]` and other target
`1`. -/
theorem cross_entropy_amended_witness :
    ([(1 : ℚ), 0].getD 1 0 < [(1 : ℚ), 0].getD (listArgmax [(1 : ℚ), 0]) 0) ∧
      CrossEntropyLoss 2 [[[(1 : ℚ), 0]]] [[listArgmax [(1 : ℚ), 0]]] <
        CrossEntropyLoss 2 [[[(1 : ℚ), 0]]] [[1]] := by
  have h : [(1 : ℚ), 0].getD 1 0 < [(1 : ℚ), 0].getD (listArgmax [(1 : ℚ), 0]) 0 := by
    norm_num [listArgmax]
  exact ⟨h, (cross_entropy_amended 2 [] [] [(1 : ℚ), 0] 1 h).2⟩

/-- Modelled from the spec: the Sequential Batch Source
(`labml_helpers.datasets.text.SequentialDataLoader`, constructed by
`train_loader` at lines 163–176, is not part of this repository's sources).
Spec §4.2: partition the length-`L` index sequence into `B` contiguous
sub-streams of length `⌊L/B⌋`; `subStream data B j` is the `j`-th
sub-stream. -/
def subStream (data : List ℕ) (B j : ℕ) : List ℕ :=
  (data.drop (j * (data.length / B))).take (data.length / B)

/-- Modelled from the spec: the number of `(T, B)` windows the Sequential
Batch Source emits per epoch, `⌊⌊L/B⌋/T⌋`; the final partial window is
dropped. -/
def windowCount (data : List ℕ) (B T : ℕ) : ℕ :=
  data.length / B / T

/-- Modelled from the spec: the `k`-th emitted window, a `(T, B)` matrix
whose row `t` holds, for each sub-stream `j`, the sub-stream's value at the
common advancing offset `k*T + t`. -/
def windowAt (data : List ℕ) (B T k : ℕ) : List (List ℕ) :=
  (List.range T).map (fun t => (List.range B).map (fun j => (subStream data B j).getD (k * T + t) 0))

/-- Modelled from the spec: the full per-epoch window sequence of the
Sequential Batch Source, in emission order. -/
def sequentialWindows (data : List ℕ) (B T : ℕ) : List (List (List ℕ)) :=
  (List.range (windowCount data B T)).map (windowAt data B T)

/-- The values the emitted windows carry for sub-stream `j`, concatenated in
emission order. -/
def columnConcat (data : List ℕ) (B T j : ℕ) : List ℕ :=
  (sequentialWindows data B T).flatMap (fun w => w.map (fun row => row.getD j 0))

lemma getD_map_range {α : Type} (f : ℕ → α) (d : α) {j B : ℕ} (h : j < B) :
    (((List.range B).map f).getD j d) = f j := by
  rw [List.getD_eq_getElem?_getD]
  rw [List.getElem?_eq_getElem (by simpa using h)]
  simp

lemma map_range_getD_eq_take {l : List ℕ} :
    ∀ (T m : ℕ), m + T ≤ l.length →
      (List.range T).map (fun t => l.getD (m + t) 0) = (l.drop m).take T
  | 0, m, _ => by simp
  | T + 1, m, h => by
    have hm : m < l.length := by omega
    have hIH := @map_range_getD_eq_take l T (m + 1) (by omega)
    have hfun : ((fun t => l.getD (m + t) 0) ∘ Nat.succ) =
        (fun t => l.getD ((m + 1) + t) 0) := by
      funext t
      simp only [Function.comp_apply]
      congr 1
      omega
    have h1 : l.getD m 0 = l[m] := by
      rw [List.getD_eq_getElem?_getD, List.getElem?_eq_getElem hm]
      rfl
    rw [List.range_succ_eq_map, List.map_cons, List.map_map, hfun, hIH,
      List.drop_eq_getElem_cons hm, List.take_succ_cons]
    simp only [Nat.add_zero, h1]

lemma flatMap_slices (l : List ℕ) (T : ℕ) :
    ∀ K : ℕ, (List.range K).flatMap (fun k => (l.drop (k * T)).take T) = l.take (K * T)
  | 0 => by simp
  | K + 1 => by
    rw [List.range_succ, List.flatMap_append, flatMap_slices l T K]
    simp only [List.flatMap_cons, List.flatMap_nil, List.append_nil]
    rw [Nat.succ_mul, List.take_add]

lemma subStream_length (data : List ℕ) {B j : ℕ} (hj : j < B) :
    (subStream data B j).length = data.length / B := by
  have h1 : (j + 1) * (data.length / B) ≤ data.length := by
    calc (j + 1) * (data.length / B) ≤ B * (data.length / B) :=
          Nat.mul_le_mul_right _ hj
      _ = data.length / B * B := Nat.mul_comm _ _
      _ ≤ data.length := Nat.div_mul_le_self _ _
  rw [Nat.succ_mul] at h1
  simp only [subStream, List.length_take, List.length_drop]
  omega

lemma windowAt_col {data : List ℕ} {B T k j : ℕ} (hj : j < B)
    (hk : k < windowCount data B T) :
    (windowAt data B T k).map (fun row => row.getD j 0) =
      ((subStream data B j).drop (k * T)).take T := by
  have hbound : k * T + T ≤ (subStream data B j).length := by
    rw [subStream_length data hj]
    calc k * T + T = (k + 1) * T := (Nat.succ_mul _ _).symm
      _ ≤ windowCount data B T * T := Nat.mul_le_mul_right _ hk
      _ ≤ data.length / B := Nat.div_mul_le_self _ _
  rw [← map_range_getD_eq_take T (k * T) hbound]
  simp only [windowAt, List.map_map]
  refine List.map_congr_left (fun t _ => ?_)
  simp only [Function.comp_apply]
  exact getD_map_range _ _ hj

/-- C5: the Sequential Batch Source emits exactly `⌊⌊L/B⌋/T⌋` windows per
epoch, each of exact shape `(T, B)`; each sub-stream has length `⌊L/B⌋`, and
concatenating the emitted windows' values for sub-stream `j` in emission
order yields the sub-stream's prefix of length `T·⌊⌊L/B⌋/T⌋` — a prefix of
that sub-stream (of length `⌊L/B⌋`). -/
theorem sequential_batch_source_windows (data : List ℕ) (B T : ℕ)
    (hB : 0 < B) (hT : 0 < T) :
    (sequentialWindows data B T).length = data.length / B / T ∧
      (∀ w ∈ sequentialWindows data B T,
        w.length = T ∧ ∀ row ∈ w, row.length = B) ∧
      ∀ j, j < B →
        (subStream data B j).length = data.length / B ∧
          columnConcat data B T j =
            (subStream data B j).take (windowCount data B T * T) := by
  refine ⟨?_, ?_, ?_⟩
  · simp [sequentialWindows, windowCount]
  · intro w hw
    obtain ⟨k, _, rfl⟩ := List.mem_map.mp hw
    constructor
    · simp [windowAt]
    · intro row hrow
      obtain ⟨t, _, rfl⟩ := List.mem_map.mp hrow
      simp
  · intro j hj
    refine ⟨subStream_length data hj, ?_⟩
    rw [columnConcat, sequentialWindows, List.flatMap_map]
    have hcongr : ∀ k ∈ List.range (windowCount data B T),
        (windowAt data B T k).map (fun row => row.getD j 0) =
          ((subStream data B j).drop (k * T)).take T := by
      intro k hk
      exact windowAt_col hj (List.mem_range.mp hk)
    calc (List.range (windowCount data B T)).flatMap
          (fun k => (windowAt data B T k).map (fun row => row.getD j 0))
        = (List.range (windowCount data B T)).flatMap
            (fun k => ((subStream data B j).drop (k * T)).take T) :=
          List.flatMap_congr hcongr
      _ = (subStream data B j).take (windowCount data B T * T) :=
          flatMap_slices _ T _

/-- Witness for `sequential_batch_source_windows` on an 11-element corpus
with `B = 2`, `T = 2`. -/
theorem sequential_batch_source_windows_witness :
    (sequentialWindows (List.range 11) 2 2).length = 11 / 2 / 2 ∧
      (windowAt (List.range 11) 2 2 0).length = 2 ∧
      columnConcat (List.range 11) 2 2 1 =
        (subStream (List.range 11) 2 1).take (windowCount (List.range 11) 2 2 * 2) := by
  have h := sequential_batch_source_windows (List.range 11) 2 2 (by decide) (by decide)
  exact ⟨by simpa using h.1,
    (h.2.1 (windowAt (List.range 11) 2 2 0) (by decide)).1,
    (h.2.2 1 (by decide)).2⟩

/-- Modelled from the spec: a declared setting of the Configuration Resolver
(§4.1) — the configuration framework (`labml.configs`) is not part of this
repository's sources. A setting has an optional declared static default,
zero or more named candidate factories, and optionally one factory
registered as the default. -/
structure SettingDecl (α : Type) where
  staticDefault : Option α
  factories : List (String × (Unit → α))
  defaultFactory : Option (Unit → α)

/-- Modelled from the spec: the run-time overrides for one setting — a
literal value or a factory name. -/
structure SettingOverride (α : Type) where
  literal : Option α
  factoryName : Option String

/-- Modelled from the spec: resolution order per setting (§4.1): if a
literal override exists, use it; else if a factory-name override exists,
invoke that factory; else if a factory is registered as default, invoke it;
else use the declared static default; else the setting is unresolved
(`none`, the fatal configuration error). -/
def resolveSetting {α : Type} (d : SettingDecl α) (o : SettingOverride α) : Option α :=
  match o.literal with
  | some v => some v
  | none =>
    match o.factoryName with
    | some n => (d.factories.lookup n).map (fun f => f ())
    | none =>
      match d.defaultFactory with
      | some f => some (f ())
      | none => d.staticDefault

/-- The declaration of `batch_size` (line 32 of `train.py`):
`batch_size: int = 16`, a static default of 16 with no factories. -/
def batch_size_decl : SettingDecl ℕ :=
  ⟨some 16, [], none⟩

/-- C6: a literal override always wins: whenever a setting has a literal
override, resolution yields the override value regardless of the declared
default and factories; in particular `batch_size`, declared with static
default 16, resolves to the literal 2 that `main` (line 182) assigns, not to
16. -/
theorem config_literal_override_wins {α : Type} (d : SettingDecl α)
    (o : SettingOverride α) (v : α) (h : o.literal = some v) :
    resolveSetting d o = some v ∧
      resolveSetting batch_size_decl ⟨some 2, none⟩ = some 2 ∧
      batch_size_decl.staticDefault = some 16 := by
  refine ⟨?_, rfl, rfl⟩
  simp only [resolveSetting, h]

/-- Witness for `config_literal_override_wins` at the `batch_size` setting
with literal override 2. -/
theorem config_literal_override_wins_witness :
    resolveSetting batch_size_decl ⟨some 2, none⟩ = some 2 :=
  (config_literal_override_wins batch_size_decl ⟨some 2, none⟩ 2 rfl).1

/-- Modelled from the spec: the phases of the Training/Sampling Loop state
machine (§4.3) — the loop driver (`labml`'s training loop iterated by
`Configs.run` at line 48 and configured with `conf.epochs` at line 183) is
not part of this repository's sources.
`Idle → Sampling → TrainPass → ValidPass → Idle (next epoch) → … → Done`. -/
inductive Phase where
  | idle
  | sampling
  | trainPass
  | validPass
  | done
deriving DecidableEq

/-- Modelled from the spec: the Training State (§3) relevant to the loop:
the monotonically increasing epoch counter and the current phase. -/
structure LoopState where
  epoch : ℕ
  phase : Phase
deriving DecidableEq

/-- Modelled from the spec: one transition of the Training/Sampling Loop
with configured epoch total `N`: an idle loop below the total starts a
Sampling/TrainPass/ValidPass cycle; completing ValidPass increments the
epoch counter; an idle loop at the total moves to the terminal state, which
is absorbing. -/
def loopNext (N : ℕ) (s : LoopState) : LoopState :=
  match s.phase with
  | .idle => if s.epoch < N then ⟨s.epoch, .sampling⟩ else ⟨s.epoch, .done⟩
  | .sampling => ⟨s.epoch, .trainPass⟩
  | .trainPass => ⟨s.epoch, .validPass⟩
  | .validPass => ⟨s.epoch + 1, .idle⟩
  | .done => s

/-- The loop's state after `i` transitions from the initial state. -/
def loopStateAt (N i : ℕ) : LoopState :=
  (loopNext N)^[i] ⟨0, Phase.idle⟩

/-- The first `k` states of the run, in order. -/
def loopTrace (N k : ℕ) : List LoopState :=
  (List.range k).map (loopStateAt N)

/-- How many Sampling/TrainPass/ValidPass cycles a trace contains: each
cycle passes through `trainPass` exactly once. -/
def cycleCount (tr : List LoopState) : ℕ :=
  tr.countP (fun s => decide (s.phase = Phase.trainPass))

lemma loopNext_cycle {N e : ℕ} (h : e < N) :
    (loopNext N)^[4] ⟨e, Phase.idle⟩ = ⟨e + 1, Phase.idle⟩ := by
  show loopNext N (loopNext N (loopNext N (loopNext N ⟨e, Phase.idle⟩))) = _
  simp [loopNext, h]

lemma loopStateAt_cycle_start {N : ℕ} :
    ∀ e : ℕ, e ≤ N → loopStateAt N (4 * e) = ⟨e, Phase.idle⟩
  | 0, _ => rfl
  | e + 1, h => by
    have hih := loopStateAt_cycle_start (N := N) e (by omega)
    have : 4 * (e + 1) = 4 + 4 * e := by ring
    rw [loopStateAt, this, Function.iterate_add_apply]
    rw [loopStateAt] at hih
    rw [hih]
    exact loopNext_cycle (by omega)

lemma loopStateAt_in_cycle {N e : ℕ} (h : e < N) :
    loopStateAt N (4 * e) = ⟨e, Phase.idle⟩ ∧
      loopStateAt N (4 * e + 1) = ⟨e, Phase.sampling⟩ ∧
      loopStateAt N (4 * e + 2) = ⟨e, Phase.trainPass⟩ ∧
      loopStateAt N (4 * e + 3) = ⟨e, Phase.validPass⟩ := by
  have h0 := loopStateAt_cycle_start (N := N) e (by omega)
  have h1 : loopStateAt N (4 * e + 1) = ⟨e, Phase.sampling⟩ := by
    rw [loopStateAt, Function.iterate_succ_apply', ← loopStateAt, h0]
    simp [loopNext, h]
  have h2 : loopStateAt N (4 * e + 2) = ⟨e, Phase.trainPass⟩ := by
    rw [loopStateAt, Function.iterate_succ_apply', ← loopStateAt, h1]
    rfl
  have h3 : loopStateAt N (4 * e + 3) = ⟨e, Phase.validPass⟩ := by
    rw [loopStateAt, Function.iterate_succ_apply', ← loopStateAt, h2]
    rfl
  exact ⟨h0, h1, h2, h3⟩

lemma loopStateAt_terminal {N : ℕ} :
    ∀ k : ℕ, loopStateAt N (4 * N + 1 + k) = ⟨N, Phase.done⟩
  | 0 => by
    have h0 := loopStateAt_cycle_start (N := N) N (le_refl N)
    rw [Nat.add_zero, loopStateAt, Function.iterate_succ_apply', ← loopStateAt, h0]
    simp [loopNext]
  | k + 1 => by
    have hih := loopStateAt_terminal (N := N) k
    have : 4 * N + 1 + (k + 1) = (4 * N + 1 + k) + 1 := by ring
    rw [this, loopStateAt, Function.iterate_succ_apply', ← loopStateAt, hih]
    rfl

lemma loopNext_epoch_le (N : ℕ) (s : LoopState) : s.epoch ≤ (loopNext N s).epoch := by
  rcases s with ⟨e, ph⟩
  cases ph <;> simp [loopNext] <;> split <;> simp

lemma loopStateAt_epoch_mono (N : ℕ) : ∀ i k : ℕ,
    (loopStateAt N i).epoch ≤ (loopStateAt N (i + k)).epoch
  | _, 0 => le_refl _
  | i, k + 1 => by
    have hih := loopStateAt_epoch_mono N i k
    have hstep := loopNext_epoch_le N (loopStateAt N (i + k))
    have hsucc : loopStateAt N (i + (k + 1)) = loopNext N (loopStateAt N (i + k)) := by
      have harith : i + (k + 1) = (i + k) + 1 := by omega
      rw [harith, loopStateAt, loopStateAt, Function.iterate_succ_apply']
    rw [hsucc]
    exact le_trans hih hstep

lemma cycleCount_cycles {N : ℕ} :
    ∀ e : ℕ, e ≤ N → cycleCount (loopTrace N (4 * e)) = e
  | 0, _ => rfl
  | e + 1, h => by
    have hih := cycleCount_cycles (N := N) e (by omega)
    obtain ⟨h0, h1, h2, h3⟩ := loopStateAt_in_cycle (N := N) (e := e) (by omega)
    have hr : 4 * (e + 1) = 4 * e + 1 + 1 + 1 + 1 := by ring
    simp only [cycleCount] at hih ⊢
    rw [loopTrace, hr, List.range_succ, List.range_succ, List.range_succ,
      List.range_succ, List.map_append, List.map_append, List.map_append,
      List.map_append, ← loopTrace]
    simp only [List.countP_append, List.map_cons, List.map_nil]
    rw [h0, h1, h2, h3]
    simp only [List.countP_cons, List.countP_nil]
    simp [List.countP_cons, hih]

lemma cycleCount_stable {N : ℕ} :
    ∀ k : ℕ, cycleCount (loopTrace N (4 * N + 1 + k)) = N
  | 0 => by
    have hN := cycleCount_cycles (N := N) N (le_refl N)
    have h0 := loopStateAt_cycle_start (N := N) N (le_refl N)
    simp only [cycleCount] at hN ⊢
    rw [Nat.add_zero, loopTrace, List.range_succ, List.map_append, ← loopTrace,
      List.countP_append, hN]
    simp [h0, List.countP_cons]
  | k + 1 => by
    have hih := cycleCount_stable (N := N) k
    have hdone := loopStateAt_terminal (N := N) k
    have hr : 4 * N + 1 + (k + 1) = (4 * N + 1 + k) + 1 := by ring
    simp only [cycleCount] at hih ⊢
    rw [hr, loopTrace, List.range_succ, List.map_append, ← loopTrace,
      List.countP_append, hih]
    simp [hdone, List.countP_cons]

/-- C7: with configured epoch total `N`, the Training/Sampling Loop reaches
the terminal state `⟨N, Done⟩` after its `N` cycles and stays there under
every further transition; every trace long enough to contain the whole run
contains exactly `N` Sampling/TrainPass/ValidPass cycles, never an
`(N+1)`-th; and the epoch counter increases monotonically along the run. -/
theorem training_loop_epochs (N : ℕ) :
    loopStateAt N (4 * N + 1) = ⟨N, Phase.done⟩ ∧
      (∀ k : ℕ, loopStateAt N (4 * N + 1 + k) = ⟨N, Phase.done⟩) ∧
      (∀ k : ℕ, cycleCount (loopTrace N (4 * N + 1 + k)) = N) ∧
      ∀ i k : ℕ, (loopStateAt N i).epoch ≤ (loopStateAt N (i + k)).epoch := by
  refine ⟨?_, loopStateAt_terminal, cycleCount_stable, loopStateAt_epoch_mono N⟩
  have := loopStateAt_terminal (N := N) 0
  simpa using this

end SourceCodeModelling
